import Mathlib

/-!
Verification of django-custom-cache-page: a shallow embedding of the
cache-key construction, surrogate-key handling, invalidation strategies
and backend combinators, with theorems checking the specification's
claims against the embedded code.

Source files embedded:
  custom_cache_page/keys.py          (hash_key, MD5 digest)
  custom_cache_page/surrogates.py    (SurrogateKeySet)
  custom_cache_page/indexes.py       (DjangoCacheIndex, generic path)
  custom_cache_page/backends/base.py (HeaderAwareMixin.add_surrogate_headers)
  custom_cache_page/backends/django.py
  custom_cache_page/backends/composite.py
  custom_cache_page/decorators.py    (_build_cache_key, invalidate_tag)

Machine integers are modelled as Nat with explicit reduction mod 2 ^ 32
where the MD5 algorithm overflows; Python byte strings are lists of Nat
below 256; a Python exception is an explicit error value.
-/

namespace CCP

/-- Reduce a natural number to a 32-bit word. -/
def m32 (x : Nat) : Nat := x % 4294967296

/-- 32-bit bitwise complement (Python `~` restricted to 32-bit words). -/
def compl32 (x : Nat) : Nat := 4294967295 - m32 x

/-- Left rotation of a 32-bit word by `n` bits (0 < n < 32). -/
def rotl32 (x n : Nat) : Nat := m32 (x * 2 ^ n + x / 2 ^ (32 - n))

/-- The 64 MD5 round constants (RFC 1321 T table). -/
def md5K : List Nat :=
  [0xd76aa478, 0xe8c7b756, 0x242070db, 0xc1bdceee,
   0xf57c0faf, 0x4787c62a, 0xa8304613, 0xfd469501,
   0x698098d8, 0x8b44f7af, 0xffff5bb1, 0x895cd7be,
   0x6b901122, 0xfd987193, 0xa679438e, 0x49b40821,
   0xf61e2562, 0xc040b340, 0x265e5a51, 0xe9b6c7aa,
   0xd62f105d, 0x02441453, 0xd8a1e681, 0xe7d3fbc8,
   0x21e1cde6, 0xc33707d6, 0xf4d50d87, 0x455a14ed,
   0xa9e3e905, 0xfcefa3f8, 0x676f02d9, 0x8d2a4c8a,
   0xfffa3942, 0x8771f681, 0x6d9d6122, 0xfde5380c,
   0xa4beea44, 0x4bdecfa9, 0xf6bb4b60, 0xbebfbc70,
   0x289b7ec6, 0xeaa127fa, 0xd4ef3085, 0x04881d05,
   0xd9d4d039, 0xe6db99e5, 0x1fa27cf8, 0xc4ac5665,
   0xf4292244, 0x432aff97, 0xab9423a7, 0xfc93a039,
   0x655b59c3, 0x8f0ccc92, 0xffeff47d, 0x85845dd1,
   0x6fa87e4f, 0xfe2ce6e0, 0xa3014314, 0x4e0811a1,
   0xf7537e82, 0xbd3af235, 0x2ad7d2bb, 0xeb86d391]

/-- The per-round left-rotation amounts of MD5. -/
def md5S : List Nat :=
  [7, 12, 17, 22, 7, 12, 17, 22, 7, 12, 17, 22, 7, 12, 17, 22,
   5, 9, 14, 20, 5, 9, 14, 20, 5, 9, 14, 20, 5, 9, 14, 20,
   4, 11, 16, 23, 4, 11, 16, 23, 4, 11, 16, 23, 4, 11, 16, 23,
   6, 10, 15, 21, 6, 10, 15, 21, 6, 10, 15, 21, 6, 10, 15, 21]

/-- Read the `g`-th little-endian 32-bit word out of a 64-byte chunk. -/
def md5Word (chunk : List Nat) (g : Nat) : Nat :=
  chunk.getD (4 * g) 0 + 256 * chunk.getD (4 * g + 1) 0 +
    65536 * chunk.getD (4 * g + 2) 0 + 16777216 * chunk.getD (4 * g + 3) 0

/-- One MD5 round `i` on state (a, b, c, d) for a given chunk. -/
def md5Round (chunk : List Nat) (st : Nat × Nat × Nat × Nat) (i : Nat) :
    Nat × Nat × Nat × Nat :=
  let a := st.1
  let b := st.2.1
  let c := st.2.2.1
  let d := st.2.2.2
  let fg : Nat × Nat :=
    if i < 16 then ((b &&& c) ||| (compl32 b &&& d), i)
    else if i < 32 then ((d &&& b) ||| (compl32 d &&& c), (5 * i + 1) % 16)
    else if i < 48 then (b ^^^ c ^^^ d, (3 * i + 5) % 16)
    else (c ^^^ (b ||| compl32 d), (7 * i) % 16)
  let f := m32 (fg.1 + a + md5K.getD i 0 + md5Word chunk fg.2)
  (d, m32 (b + rotl32 f (md5S.getD i 0)), b, c)

/-- Process one 64-byte chunk, updating the running MD5 state. -/
def md5Chunk (st : Nat × Nat × Nat × Nat) (chunk : List Nat) :
    Nat × Nat × Nat × Nat :=
  let r := (List.range 64).foldl (md5Round chunk) st
  (m32 (st.1 + r.1), m32 (st.2.1 + r.2.1), m32 (st.2.2.1 + r.2.2.1),
   m32 (st.2.2.2 + r.2.2.2))

/-- Split a byte list into chunks of 64 bytes, with enough fuel to consume
the whole list (structural recursion so the kernel can evaluate it). -/
def chunks64Aux : Nat → List Nat → List (List Nat)
  | 0, _ => []
  | _, [] => []
  | fuel + 1, l => l.take 64 :: chunks64Aux fuel (l.drop 64)

/-- Split a byte list into chunks of 64 bytes. -/
def chunks64 (l : List Nat) : List (List Nat) := chunks64Aux (l.length + 1) l

/-- MD5 padding: append 0x80, zero bytes to 56 mod 64, then the 8-byte
little-endian bit length. -/
def md5Pad (msg : List Nat) : List Nat :=
  let z := (120 - ((msg.length + 1) % 64)) % 64
  let bitLen := (8 * msg.length) % 2 ^ 64
  msg ++ [0x80] ++ List.replicate z 0 ++
    ((List.range 8).map fun i => bitLen / 256 ^ i % 256)

/-- The 16-byte MD5 digest of a byte list. -/
def md5Bytes (msg : List Nat) : List Nat :=
  let st := (chunks64 (md5Pad msg)).foldl md5Chunk
    (0x67452301, 0xefcdab89, 0x98badcfe, 0x10325476)
  ([st.1, st.2.1, st.2.2.1, st.2.2.2].map fun w =>
    (List.range 4).map fun i => w / 256 ^ i % 256).flatten

/-- Hexadecimal rendering of a byte list (two lowercase digits per byte). -/
def hexDigest (bytes : List Nat) : String :=
  String.mk ((bytes.map fun b => [Nat.digitChar (b / 16), Nat.digitChar (b % 16)]).flatten)

/-- UTF-8 encoding of one Unicode scalar value. -/
def utf8EncodeChar (c : Char) : List Nat :=
  let n := c.toNat
  if n < 0x80 then [n]
  else if n < 0x800 then [0xC0 + n / 64, 0x80 + n % 64]
  else if n < 0x10000 then
    [0xE0 + n / 4096, 0x80 + n / 64 % 64, 0x80 + n % 64]
  else
    [0xF0 + n / 262144, 0x80 + n / 4096 % 64, 0x80 + n / 64 % 64, 0x80 + n % 64]

/-- UTF-8 encoding of a string (Python `key.encode("utf-8")`). -/
def utf8Encode (s : String) : List Nat := (s.data.map utf8EncodeChar).flatten

/-- keys.py `hash_key`: MD5 hex digest of the UTF-8 encoded key. -/
def hash_key (key : String) : String := hexDigest (md5Bytes (utf8Encode key))

set_option maxRecDepth 10000 in
example : hash_key "abc" = "900150983cd24fb0d6963f7d28e17f72" := by decide

/-! ## Decimal rendering (Python f-string interpolation of ints) -/

/-- Decimal digits of `n`, most significant first, with explicit fuel so the
kernel can evaluate it (fuel above `n` always suffices). -/
def natToDecAux : Nat → Nat → List Char
  | 0, _ => []
  | fuel + 1, n =>
    if n < 10 then [Nat.digitChar n]
    else natToDecAux fuel (n / 10) ++ [Nat.digitChar (n % 10)]

/-- Decimal rendering of a natural number. -/
def natToDec (n : Nat) : String := String.mk (natToDecAux (n + 1) n)

/-- Python `str()` of an int. -/
def intToDec (i : Int) : String :=
  if i < 0 then "-" ++ natToDec (-i).toNat else natToDec i.toNat

/-- Numeric value of a decimal digit character. -/
def digitVal (c : Char) : Nat := c.toNat - 48

/-- Value of a most-significant-first digit list. -/
def decVal (l : List Char) : Nat := l.foldl (fun a c => 10 * a + digitVal c) 0

/-! ## Python string helpers (surrogates.py) -/

/-- The characters Python's `str.strip()` removes: the `str.isspace` set. -/
def isPySpace (c : Char) : Bool :=
  decide ((9 ≤ c.toNat ∧ c.toNat ≤ 13) ∨ (28 ≤ c.toNat ∧ c.toNat ≤ 31) ∨
    c.toNat = 32 ∨ c.toNat = 0x85 ∨ c.toNat = 0xA0 ∨ c.toNat = 0x1680 ∨
    (0x2000 ≤ c.toNat ∧ c.toNat ≤ 0x200A) ∨ c.toNat = 0x2028 ∨
    c.toNat = 0x2029 ∨ c.toNat = 0x202F ∨ c.toNat = 0x205F ∨ c.toNat = 0x3000)

/-- Python `s.strip()`: drop leading and trailing whitespace. -/
def pyStrip (l : List Char) : List Char :=
  ((l.dropWhile isPySpace).reverse.dropWhile isPySpace).reverse

/-- One character of Python `s.replace(" ", "-")`. -/
def replaceSpaceChar (c : Char) : Char := if c = ' ' then '-' else c

/-- Python `s.replace(" ", "-")`. -/
def pyReplaceSpace (l : List Char) : List Char := l.map replaceSpaceChar

/-- Python `" ".join(keys)`. -/
def joinSpace : List String → String
  | [] => ""
  | [k] => k
  | k :: k2 :: rest => k ++ " " ++ joinSpace (k2 :: rest)

/-- Python `",".join(parts)`. -/
def joinComma : List String → String
  | [] => ""
  | [k] => k
  | k :: k2 :: rest => k ++ "," ++ joinComma (k2 :: rest)

/-- One step (from the right) of Python `s.split()`: accumulate the current
word and the list of completed words. -/
def splitWsStep (c : Char) (p : List Char × List (List Char)) :
    List Char × List (List Char) :=
  if isPySpace c then ([], if p.1 = [] then p.2 else p.1 :: p.2)
  else (c :: p.1, p.2)

/-- Python `s.split()` on a character list: split on whitespace runs,
discarding empty words. -/
def splitWs (l : List Char) : List (List Char) :=
  let p := l.foldr splitWsStep ([], [])
  if p.1 = [] then p.2 else p.1 :: p.2

/-- Python `s.split()` on a string. -/
def pySplit (s : String) : List String := (splitWs s.data).map String.mk

/-- Total UTF-8 byte length of a string (`len(key.encode("utf-8"))`). -/
def utf8Len (s : String) : Nat := (utf8Encode s).length

/-! ## SurrogateKeySet (surrogates.py) -/

namespace SurrogateKeySet

/-- surrogates.py `SurrogateKeySet._normalize_key`: empty input yields None,
otherwise strip whitespace, replace spaces by hyphens, and reject an empty
result. -/
def normalize_key (key : String) : Option String :=
  if key = "" then none
  else if String.mk (pyReplaceSpace (pyStrip key.data)) = "" then none
  else some (String.mk (pyReplaceSpace (pyStrip key.data)))

/-- One key of surrogates.py `SurrogateKeySet.add`: append the normalized key
if it normalizes and is not already present. The set's state is its ordered
key list. -/
def addOne (ks : List String) (key : String) : List String :=
  match normalize_key key with
  | some n => if n ∈ ks then ks else ks ++ [n]
  | none => ks

/-- surrogates.py `SurrogateKeySet.add(*keys)`. -/
def add (ks : List String) (keys : List String) : List String :=
  keys.foldl addOne ks

/-- surrogates.py `SurrogateKeySet(keys)`: build a set from raw keys. -/
def ofKeys (keys : List String) : List String := add [] keys

/-- surrogates.py `SurrogateKeySet.to_header`: space-join the keys. -/
def to_header (ks : List String) : String := joinSpace ks

/-- surrogates.py `SurrogateKeySet.from_header`: empty header gives the empty
set, otherwise split on whitespace and rebuild. -/
def from_header (headerValue : String) : List String :=
  if headerValue = "" then [] else ofKeys (pySplit headerValue)

end SurrogateKeySet

/-! ## Python exceptions and the Django cache store

The shared Django cache is a single keyspace holding serialized responses,
surrogate index lists and integer version counters; a value is modelled by
`CacheVal`. Time/TTL semantics are not modelled: timeout arguments are kept
where the source passes them but have no effect on the functional state. -/

inductive PyErr where
  | notImplementedError
  | valueError
  | typeError
  | unicodeDecodeError
deriving DecidableEq, Repr

/-- An HTTP response: body bytes, status code, and a header bag. -/
structure PyResponse where
  content : List Nat
  status_code : Nat
  headers : List (String × String)
deriving DecidableEq, Repr

/-- `response[header]` lookup (case handling not modelled; callers use
consistent casing, as the source does). -/
def PyResponse.getHeader (r : PyResponse) (name : String) : Option String :=
  (r.headers.find? fun p => p.1 = name).map Prod.snd

/-- `response[header] = value`: replace or append the header. -/
def PyResponse.setHeader (r : PyResponse) (name value : String) : PyResponse :=
  { r with headers :=
      if r.headers.any fun p => p.1 = name then
        r.headers.map fun p => if p.1 = name then (name, value) else p
      else r.headers ++ [(name, value)] }

/-- The dict DjangoCacheBackend.set stores: decoded content (as Unicode
scalar values), content type, status and the allow-listed headers. -/
structure SerializedResponse where
  content : List Nat
  content_type : String
  status_code : Nat
  headers : List (String × String)
deriving DecidableEq, Repr

/-- A value in the Django cache keyspace. -/
inductive CacheVal where
  | int (n : Int)
  | strList (l : List String)
  | dict (d : SerializedResponse)
deriving DecidableEq, Repr

/-- The cache store state: a partial map from keys to values. -/
def Store : Type := String → Option CacheVal

/-- `cache.set(key, value, ...)`. -/
def storeSet (k : String) (v : CacheVal) (s : Store) : Store :=
  fun j => if j = k then some v else s j

/-- `cache.delete(key)`: returns whether the key existed, and the new state. -/
def storeDelete (k : String) (s : Store) : Bool × Store :=
  ((s k).isSome, fun j => if j = k then none else s j)

/-- `cache.incr(key)`: raises ValueError when the key does not exist (Django
semantics) and TypeError when the stored value is not an int. -/
def storeIncr (k : String) (s : Store) : Except PyErr (Int × Store) :=
  match s k with
  | none => .error .valueError
  | some (.int n) => .ok (n + 1, storeSet k (.int (n + 1)) s)
  | some _ => .error .typeError

/-- `cache.get_or_set(key, default, timeout)`: return the present value, or
store and return the default. -/
def storeGetOrSet (k : String) (v : CacheVal) (_timeout : Int) (s : Store) :
    CacheVal × Store :=
  match s k with
  | some w => (w, s)
  | none => (v, storeSet k v s)

/-- Python `str()` of a cache value, as interpolated by an f-string.
Rendering of a serialized-response dict is a placeholder (no claim
interpolates a dict). -/
def pyStrVal : CacheVal → String
  | .int n => intToDec n
  | .strList l =>
    "[" ++ joinComma (l.map fun x => "\x27" ++ x ++ "\x27") ++ "]"
  | .dict _ => "<dict>"

/-! ## UTF-8 decoding (Python `bytes.decode("utf-8")`, strict) -/

/-- Is a byte a UTF-8 continuation byte? -/
def isCont (b : Nat) : Bool := decide (0x80 ≤ b ∧ b < 0xC0)

/-- Strict UTF-8 decoding of a byte list to Unicode scalar values; `none` is
Python's UnicodeDecodeError. Rejects continuation-byte starts, overlong
forms, surrogates, and values above U+10FFFF, like CPython's strict codec. -/
def utf8Decode : List Nat → Option (List Nat)
  | [] => some []
  | b :: rest =>
    if b < 0x80 then (utf8Decode rest).map (b :: ·)
    else if b < 0xC2 then none
    else if b < 0xE0 then
      match rest with
      | b2 :: rest2 =>
        if isCont b2 then
          (utf8Decode rest2).map (((b - 0xC0) * 64 + (b2 - 0x80)) :: ·)
        else none
      | [] => none
    else if b < 0xF0 then
      match rest with
      | b2 :: b3 :: rest3 =>
        if isCont b2 && isCont b3 && !(decide (b = 0xE0) && decide (b2 < 0xA0))
            && !(decide (b = 0xED) && decide (0xA0 ≤ b2)) then
          (utf8Decode rest3).map
            (((b - 0xE0) * 4096 + (b2 - 0x80) * 64 + (b3 - 0x80)) :: ·)
        else none
      | _ => none
    else if b < 0xF5 then
      match rest with
      | b2 :: b3 :: b4 :: rest4 =>
        if isCont b2 && isCont b3 && isCont b4
            && !(decide (b = 0xF0) && decide (b2 < 0x90))
            && !(decide (b = 0xF4) && decide (0x90 ≤ b2)) then
          (utf8Decode rest4).map
            (((b - 0xF0) * 262144 + (b2 - 0x80) * 4096 + (b3 - 0x80) * 64 +
              (b4 - 0x80)) :: ·)
        else none
      | _ => none
    else none

/-! ## HeaderAwareMixin (backends/base.py) -/

namespace HeaderAwareMixin

/-- The key-selection loop of base.py `add_surrogate_headers` (lines
124-134): carry the accumulated size, skip keys over `MAX_KEY_SIZE`
(`continue`), stop outright once a key would push the running total over
`MAX_HEADER_SIZE` (`break`), otherwise accept the key. -/
def selectKeys : List String → Nat → List String
  | [], _ => []
  | k :: rest, total =>
    let keySize := utf8Len k
    if keySize > 1024 then selectKeys rest total
    else if total + keySize + 1 > 16384 then []
    else k :: selectKeys rest (total + keySize + 1)

/-- base.py `HeaderAwareMixin.add_surrogate_headers`: set the Surrogate-Key
header to the space-joined accepted keys, when any were given and any
survived selection. -/
def add_surrogate_headers (response : PyResponse) (surrogate_keys : List String) :
    PyResponse :=
  if surrogate_keys = [] then response
  else
    let valid_keys := selectKeys surrogate_keys 0
    if valid_keys = [] then response
    else response.setHeader "Surrogate-Key" (joinSpace valid_keys)

end HeaderAwareMixin

/-! ## DjangoCacheIndex (indexes.py, generic non-Redis path)

The embedded variant is the generic Django-cache path (`_redis_client` is
None): the index for a surrogate key lives in the same store under the
prefixed index key, as a list of cache keys. `get_keys` converts the stored
list to a Python set; it is modelled as the stored list itself (iteration
order of the set is irrelevant to counts and final states, and the stored
list is duplicate-free whenever it was built by `add`). A stored value of a
non-list type is treated as absent. -/

namespace DjangoCacheIndex

/-- indexes.py `_index_key` with the default prefix. -/
def index_key (surrogate_key : String) : String :=
  "_surrogate:" ++ surrogate_key

/-- indexes.py `DjangoCacheIndex.add`, generic path: read-modify-write of
the index list, appending the cache key if absent. -/
def add (surrogate_key cache_key : String) (s : Store) : Store :=
  let current :=
    match s (index_key surrogate_key) with
    | some (.strList l) => l
    | _ => []
  let keys := if cache_key ∈ current then current else current ++ [cache_key]
  storeSet (index_key surrogate_key) (.strList keys) s

/-- indexes.py `DjangoCacheIndex.get_keys`, generic path. -/
def get_keys (surrogate_key : String) (s : Store) : List String :=
  match s (index_key surrogate_key) with
  | some (.strList l) => l
  | _ => []

/-- indexes.py `DjangoCacheIndex.remove`, generic path. -/
def remove (surrogate_key : String) (s : Store) : Store :=
  (storeDelete (index_key surrogate_key) s).2

end DjangoCacheIndex

/-! ## DjangoCacheBackend (backends/django.py) -/

namespace DjangoCacheBackend

/-- The header allow-list of django.py `set`. -/
def cacheableHeaders : List String :=
  ["Cache-Control", "Expires", "ETag", "Last-Modified", "Vary"]

/-- A cache entry as passed to `set` (backends/base.py `CacheEntry`). -/
structure CacheEntry where
  key : String
  response : PyResponse
  timeout : Int
  surrogate_keys : List String

/-- UTF-8 encoding of one stored Unicode scalar value (HttpResponse
re-encodes the cached text body as UTF-8 bytes). -/
def utf8EncodeScalar (n : Nat) : List Nat :=
  if n < 0x80 then [n]
  else if n < 0x800 then [0xC0 + n / 64, 0x80 + n % 64]
  else if n < 0x10000 then
    [0xE0 + n / 4096, 0x80 + n / 64 % 64, 0x80 + n % 64]
  else
    [0xF0 + n / 262144, 0x80 + n / 4096 % 64, 0x80 + n / 64 % 64, 0x80 + n % 64]

/-- django.py `DjangoCacheBackend.get`: a stored serialized dict is turned
back into a response (body re-encoded, Content-Type plus the stored
headers); an absent key is a miss. A stored value of another type never
arises from `set` and is modelled as a miss. -/
def get (key : String) (s : Store) : Option PyResponse :=
  match s key with
  | some (.dict d) =>
    some { content := (d.content.map utf8EncodeScalar).flatten,
           status_code := d.status_code,
           headers := ("Content-Type", d.content_type) :: d.headers }
  | _ => none

/-- django.py `DjangoCacheBackend.set`: decode the body as UTF-8 (raising
UnicodeDecodeError on invalid bytes, before any write), build the
serialized dict, store it, then add the entry's key under every surrogate
key's index. Returns the raised error (if any) with the store state at the
time of the raise. -/
def set (entry : CacheEntry) (s : Store) : Option PyErr × Store :=
  match utf8Decode entry.response.content with
  | none => (some .unicodeDecodeError, s)
  | some text =>
    let headers := cacheableHeaders.filterMap fun h =>
      (entry.response.getHeader h).map fun v => (h, v)
    let serialized : SerializedResponse :=
      { content := text,
        content_type := (entry.response.getHeader "Content-Type").getD "text/html",
        status_code := entry.response.status_code,
        headers := headers }
    let s1 := storeSet entry.key (.dict serialized) s
    let s2 := entry.surrogate_keys.foldl
      (fun st sk => DjangoCacheIndex.add sk entry.key st) s1
    (none, s2)

/-- The counting delete loop of django.py `invalidate_by_surrogate`
(lines 97-100): delete each key from the store, adding one per key that
existed. -/
def deleteAll (keys : List String) (acc : Int) (s : Store) : Int × Store :=
  keys.foldl
    (fun (p : Int × Store) k =>
      let d := storeDelete k p.2
      (p.1 + if d.1 then 1 else 0, d.2))
    (acc, s)

/-- django.py `DjangoCacheBackend.invalidate_by_surrogate`: fetch the
indexed keys, return 0 when there are none, otherwise delete each from the
store counting successes, remove the index entry, and return the count. -/
def invalidate_by_surrogate (surrogate_key : String) (s : Store) :
    Int × Store :=
  let keys := DjangoCacheIndex.get_keys surrogate_key s
  if keys = [] then (0, s)
  else
    let cs := deleteAll keys 0 s
    (cs.1, DjangoCacheIndex.remove surrogate_key cs.2)

/-- django.py `DjangoCacheBackend.get_group_version`:
`cache.get_or_set(group, 1, timeout)`. -/
def get_group_version (group : String) (timeout : Int) (s : Store) :
    CacheVal × Store :=
  storeGetOrSet group (.int 1) timeout s

/-- django.py `DjangoCacheBackend.increment_group_version`: `cache.incr`,
catching ValueError (missing key) by re-initializing the counter to 2 and
returning 2. Other errors (TypeError on a non-int value) propagate. -/
def increment_group_version (group : String) (s : Store) :
    Except PyErr (Int × Store) :=
  match storeIncr group s with
  | .ok r => .ok r
  | .error .valueError => .ok (2, storeSet group (.int 2) s)
  | .error e => .error e

end DjangoCacheBackend

/-! ## CompositeBackend.increment_group_version (backends/composite.py)

A wrapped backend is modelled by the repository's two concrete behaviours
for group versioning: `none` is a backend whose `increment_group_version`
raises NotImplementedError (the backends/base.py default), and `some s` is
a DjangoCacheBackend over its own store `s` (the repository's only backend
implementing versioning; it never raises NotImplementedError). -/

namespace CompositeBackend

/-- A wrapped backend, reduced to its group-versioning behaviour. -/
abbrev SubBackend : Type := Option Store

/-- The loop of composite.py `increment_group_version` (lines 77-84):
iterate over all backends, catch NotImplementedError and continue, keep the
value of the first backend that supported the call, thread every supporting
backend's updated state. Other exceptions propagate out of the loop. -/
def incrAux (group : String) :
    List SubBackend → Option Int → Except PyErr (Option Int × List SubBackend)
  | [], version => .ok (version, [])
  | none :: rest, version =>
    (incrAux group rest version).map fun p => (p.1, (none : SubBackend) :: p.2)
  | some st :: rest, version =>
    match DjangoCacheBackend.increment_group_version group st with
    | .error e => .error e
    | .ok (v, st') =>
      (incrAux group rest (if version = none then some v else version)).map
        fun p => (p.1, (some st' : SubBackend) :: p.2)

/-- composite.py `CompositeBackend.increment_group_version`: run the loop
with no version yet; raise NotImplementedError when no backend supported
the increment, otherwise return the first supporting backend's value. -/
def increment_group_version (group : String) (backends : List SubBackend) :
    Except PyErr (Int × List SubBackend) :=
  match incrAux group backends none with
  | .error e => .error e
  | .ok (none, _) => .error .notImplementedError
  | .ok (some v, bs') => .ok (v, bs')

end CompositeBackend

/-! ## decorators.py: cache-key construction and invalidation entry points -/

/-- decorators.py `_build_cache_key` lines 240-244: for each versioned tag
(already resolved to its name, paired with its version-key timeout), read
the group version through the backend and render the
name-colon-version component. The store is threaded because
`get_group_version` may initialize an absent counter. -/
def version_parts (versioned_tags : List (String × Int)) (s : Store) :
    List String × Store :=
  versioned_tags.foldl
    (fun (p : List String × Store) vtag =>
      let gv := DjangoCacheBackend.get_group_version vtag.1 vtag.2 p.2
      (p.1 ++ [vtag.1 ++ ":" ++ pyStrVal gv.1], gv.2))
    ([], s)

/-- Python f-string rendering of the resolved prefix of
decorators.py line 248: None renders as the four characters None. -/
def renderPrefix : Option String → String
  | none => "None"
  | some s => s

/-- decorators.py `_build_cache_key` lines 246-248: the raw composite key
before hashing. -/
def raw_key (pfx : Option String) (parts : List String) (requestKey : String) :
    String :=
  let version_str := if parts = [] then "" else joinComma parts
  renderPrefix pfx ++ ":" ++ version_str ++ ":" ++ requestKey

/-- decorators.py `_build_cache_key` over a DjangoCacheBackend: hash of the
raw key, threading the store through version reads. `requestKey` is the
value of `key_func(request)` and `pfx` the resolved prefix. -/
def build_cache_key (pfx : Option String) (versioned_tags : List (String × Int))
    (requestKey : String) (s : Store) : String × Store :=
  let vp := version_parts versioned_tags s
  (hash_key (raw_key pfx vp.1 requestKey), vp.2)

/-- An abstract backend as seen by the invalidation entry points: the two
calls `invalidate_tag` makes, each either returning an int or raising. -/
structure Backend where
  increment_group_version : String → Except PyErr Int
  invalidate_by_surrogate : String → Except PyErr Int

/-- decorators.py `invalidate_tag`: try `increment_group_version`, and on
NotImplementedError or ValueError (the tuple in the except clause at line
271) fall back to `invalidate_by_surrogate`; any other exception
propagates. -/
def invalidate_tag (b : Backend) (tag : String) : Except PyErr Int :=
  match b.increment_group_version tag with
  | .ok v => .ok v
  | .error e =>
    if e = .notImplementedError ∨ e = .valueError then
      b.invalidate_by_surrogate tag
    else .error e

/-! # Theorems for the claims -/

/-- C6: DjangoCacheBackend.increment_group_version increments an existing
counter and returns the new value; when the counter key is absent it
re-initializes the counter to 2 and returns 2, so a bump on a never-read
tag advances past 1. -/
theorem django_increment_group_version_spec (group : String) (s : Store) :
    (∀ v : Int, s group = some (.int v) →
      DjangoCacheBackend.increment_group_version group s =
        .ok (v + 1, storeSet group (.int (v + 1)) s)) ∧
    (s group = none →
      DjangoCacheBackend.increment_group_version group s =
        .ok (2, storeSet group (.int 2) s)) := by
  constructor
  · intro v hv
    simp [DjangoCacheBackend.increment_group_version, storeIncr, hv]
  · intro h
    simp [DjangoCacheBackend.increment_group_version, storeIncr, h]

/-- A store holding the integer 5 under the key g. -/
def wStoreFive : Store := fun k => if k = "g" then some (.int 5) else none

/-- Witness for C6: on a counter holding 5 the increment returns 6; on an
empty store it returns 2. -/
theorem django_increment_group_version_spec_witness :
    DjangoCacheBackend.increment_group_version "g" wStoreFive =
      .ok (6, storeSet "g" (.int 6) wStoreFive) ∧
    DjangoCacheBackend.increment_group_version "h" (fun _ => none) =
      .ok (2, storeSet "h" (.int 2) (fun _ => none)) :=
  ⟨(django_increment_group_version_spec "g" wStoreFive).1 5 rfl,
   (django_increment_group_version_spec "h" (fun _ => none)).2 rfl⟩

/-- A backend whose increment_group_version raises ValueError and whose
invalidate_by_surrogate returns 7. -/
def valueErrorBackend : Backend :=
  { increment_group_version := fun _ => .error .valueError,
    invalidate_by_surrogate := fun _ => .ok 7 }

/-- C1 counterexample: when increment_group_version raises ValueError — an
error other than NotImplementedError — invalidate_tag still falls back to
invalidate_by_surrogate (returning its 7) instead of propagating the
ValueError, contradicting the claim that fallback happens only on
NotImplementedError. -/
theorem invalidate_tag_value_error_counterexample :
    invalidate_tag valueErrorBackend "tag" = .ok 7 ∧
    invalidate_tag valueErrorBackend "tag" ≠ .error .valueError := by
  constructor
  · rfl
  · intro h
    simp [invalidate_tag, valueErrorBackend] at h

/-- C1 amended: invalidate_tag falls back to invalidate_by_surrogate
exactly when increment_group_version raises NotImplementedError or
ValueError; any other error propagates unchanged, and a successful
increment's value is returned directly. -/
theorem invalidate_tag_fallback_policy (b : Backend) (tag : String) :
    (∀ v, b.increment_group_version tag = .ok v →
      invalidate_tag b tag = .ok v) ∧
    (∀ e, b.increment_group_version tag = .error e →
      ((e = .notImplementedError ∨ e = .valueError) →
        invalidate_tag b tag = b.invalidate_by_surrogate tag) ∧
      (e ≠ .notImplementedError → e ≠ .valueError →
        invalidate_tag b tag = .error e)) := by
  refine ⟨fun v hv => ?_, fun e he => ⟨fun hor => ?_, fun h1 h2 => ?_⟩⟩
  · simp [invalidate_tag, hv]
  · simp [invalidate_tag, he, hor]
  · simp [invalidate_tag, he, h1, h2]

/-- A backend whose increment_group_version raises TypeError. -/
def typeErrorBackend : Backend :=
  { increment_group_version := fun _ => .error .typeError,
    invalidate_by_surrogate := fun _ => .ok 3 }

/-- Witness for the amended C1: a TypeError from increment_group_version
propagates out of invalidate_tag, and a ValueError triggers the fallback. -/
theorem invalidate_tag_fallback_policy_witness :
    invalidate_tag typeErrorBackend "t" = .error .typeError ∧
    invalidate_tag valueErrorBackend "t" =
      valueErrorBackend.invalidate_by_surrogate "t" :=
  ⟨((invalidate_tag_fallback_policy typeErrorBackend "t").2 .typeError rfl).2
      (by decide) (by decide),
   ((invalidate_tag_fallback_policy valueErrorBackend "t").2 .valueError rfl).1
      (Or.inr rfl)⟩

/-- C10: _build_cache_key renders an absent prefix by f-string
interpolation, so for every request key, versioned tag list and store the
cache key built with no prefix equals the one built with the literal
string None. -/
theorem build_cache_key_none_prefix_literal
    (versioned_tags : List (String × Int)) (requestKey : String) (s : Store) :
    build_cache_key none versioned_tags requestKey s =
      build_cache_key (some "None") versioned_tags requestKey s := rfl

/-- C9: DjangoCacheBackend.set decodes the body as UTF-8 before writing:
on content that is not valid UTF-8 it raises the decode error before any
store write or index update, returning the store unchanged. -/
theorem django_set_invalid_utf8_atomic
    (entry : DjangoCacheBackend.CacheEntry) (s : Store)
    (h : utf8Decode entry.response.content = none) :
    DjangoCacheBackend.set entry s = (some .unicodeDecodeError, s) := by
  simp [DjangoCacheBackend.set, h]

/-- Witness for C9: a body consisting of the single byte 255 is invalid
UTF-8, and set returns the error with the empty store untouched. -/
theorem django_set_invalid_utf8_atomic_witness :
    DjangoCacheBackend.set
      ⟨"k", ⟨[255], 200, []⟩, 300, ["t"]⟩ (fun _ => none) =
      (some .unicodeDecodeError, fun _ => none) :=
  django_set_invalid_utf8_atomic ⟨"k", ⟨[255], 200, []⟩, 300, ["t"]⟩
    (fun _ => none) (by decide)

/-! ## Helper lemmas for the header budget (C4) -/

/-- UTF-8 length is additive over string append. -/
theorem utf8Len_append (a b : String) :
    utf8Len (a ++ b) = utf8Len a + utf8Len b := by
  simp [utf8Len, utf8Encode, String.data_append]

/-- The accumulated size the selection loop charges for a key list:
each key's byte length plus one separator byte. -/
def keysSize (l : List String) : Nat := (l.map fun k => utf8Len k + 1).sum

/-- The space-joined header value is one byte shorter than the charged
size, for a nonempty key list. -/
theorem utf8Len_joinSpace (l : List String) (h : l ≠ []) :
    utf8Len (joinSpace l) + 1 = keysSize l := by
  induction l with
  | nil => exact absurd rfl h
  | cons k rest ih =>
    cases rest with
    | nil => simp [joinSpace, keysSize]
    | cons k2 r =>
      have h2 : (k2 :: r) ≠ [] := by simp
      have := ih h2
      simp only [joinSpace, keysSize, List.map_cons, List.sum_cons] at *
      rw [utf8Len_append, utf8Len_append]
      have hsp : utf8Len " " = 1 := by decide
      omega

/-- The selection loop never lets the charged size pass the 16 KiB
budget. -/
theorem selectKeys_size_le (ks : List String) :
    ∀ total, total ≤ 16384 →
      total + keysSize (HeaderAwareMixin.selectKeys ks total) ≤ 16384 := by
  induction ks with
  | nil => intro total ht; simpa [HeaderAwareMixin.selectKeys, keysSize] using ht
  | cons k rest ih =>
    intro total ht
    by_cases hbig : utf8Len k > 1024
    · simpa [HeaderAwareMixin.selectKeys, hbig] using ih total ht
    · by_cases hover : total + utf8Len k + 1 > 16384
      · simpa [HeaderAwareMixin.selectKeys, hbig, hover, keysSize] using ht
      · have hle : total + utf8Len k + 1 ≤ 16384 := by omega
        have := ih (total + utf8Len k + 1) hle
        simp only [HeaderAwareMixin.selectKeys, hbig, hover, if_false,
          if_neg hbig, if_neg hover, keysSize, List.map_cons, List.sum_cons] at *
        omega

/-- Every selected key fits the per-key budget. -/
theorem selectKeys_members (ks : List String) :
    ∀ total, ∀ k ∈ HeaderAwareMixin.selectKeys ks total, utf8Len k ≤ 1024 := by
  induction ks with
  | nil => intro total k hk; simp [HeaderAwareMixin.selectKeys] at hk
  | cons key rest ih =>
    intro total k hk
    by_cases hbig : utf8Len key > 1024
    · simp only [HeaderAwareMixin.selectKeys, if_pos hbig] at hk
      exact ih total k hk
    · by_cases hover : total + utf8Len key + 1 > 16384
      · simp [HeaderAwareMixin.selectKeys, if_neg hbig, if_pos hover] at hk
      · simp only [HeaderAwareMixin.selectKeys, if_neg hbig, if_neg hover,
          List.mem_cons] at hk
        rcases hk with rfl | hk
        · omega
        · exact ih _ k hk

/-- The selected keys are an in-order sublist of the input. -/
theorem selectKeys_sublist (ks : List String) :
    ∀ total, List.Sublist (HeaderAwareMixin.selectKeys ks total) ks := by
  induction ks with
  | nil => intro total; simp [HeaderAwareMixin.selectKeys]
  | cons key rest ih =>
    intro total
    by_cases hbig : utf8Len key > 1024
    · simp only [HeaderAwareMixin.selectKeys, if_pos hbig]
      exact (ih total).trans (List.sublist_cons_self key rest)
    · by_cases hover : total + utf8Len key + 1 > 16384
      · simp [HeaderAwareMixin.selectKeys, if_neg hbig, if_pos hover]
      · simp only [HeaderAwareMixin.selectKeys, if_neg hbig, if_neg hover]
        exact (ih _).cons₂ key

/-- The header value built from the selection never exceeds 16 KiB. -/
theorem selectKeys_join_le (ks : List String) :
    utf8Len (joinSpace (HeaderAwareMixin.selectKeys ks 0)) ≤ 16 * 1024 := by
  by_cases h : HeaderAwareMixin.selectKeys ks 0 = []
  · rw [h]
    decide
  · have hj := utf8Len_joinSpace _ h
    have hs := selectKeys_size_le ks 0 (by omega)
    omega

/-- find? over a list with no match skips to the appended part. -/
theorem find_append_none {α : Type} (p : α → Bool) (l₁ l₂ : List α)
    (h : l₁.find? p = none) : (l₁ ++ l₂).find? p = l₂.find? p := by
  induction l₁ with
  | nil => rfl
  | cons a l ih =>
    have hp : ¬ p a = true := by
      intro hpa
      rw [List.find?_cons_of_pos _ hpa] at h
      cases h
    rw [List.find?_cons_of_neg _ hp] at h
    rw [List.cons_append, List.find?_cons_of_neg _ hp]
    exact ih h

/-- find? over the header list after an in-place replacement finds the
replaced pair. -/
theorem find_map_replace (l : List (String × String)) (n v : String)
    (h : ∃ p ∈ l, p.1 = n) :
    (l.map fun p => if p.1 = n then (n, v) else p).find?
      (fun p => p.1 = n) = some (n, v) := by
  induction l with
  | nil => simp at h
  | cons a l ih =>
    by_cases ha : a.1 = n
    · simp [List.find?, ha]
    · have h' : ∃ p ∈ l, p.1 = n := by
        rcases h with ⟨p, hp, hpn⟩
        rcases List.mem_cons.mp hp with rfl | hmem
        · exact absurd hpn ha
        · exact ⟨p, hmem, hpn⟩
      simp only [List.map_cons, if_neg ha]
      rw [List.find?_cons_of_neg]
      · exact ih h'
      · simp [ha]

/-- Looking up a header after setting it returns the set value. -/
theorem PyResponse.getHeader_setHeader (r : PyResponse) (n v : String) :
    (r.setHeader n v).getHeader n = some v := by
  unfold PyResponse.setHeader PyResponse.getHeader
  by_cases h : r.headers.any fun p => p.1 = n
  · simp only [h, if_pos]
    have hex : ∃ p ∈ r.headers, p.1 = n := by
      simpa using h
    rw [find_map_replace _ _ v hex]
    rfl
  · simp only [h, Bool.false_eq_true, if_false]
    have hnone : r.headers.find? (fun p => decide (p.1 = n)) = none := by
      rw [List.find?_eq_none]
      intro p hp
      simp only [decide_eq_true_eq]
      intro hc
      rw [List.any_eq_true] at h
      exact h ⟨p, hp, by simp [hc]⟩
    rw [find_append_none _ _ _ hnone]
    simp [List.find?]

/-- C4: the Surrogate-Key header value produced by add_surrogate_headers
never exceeds 16 KiB of UTF-8, individual keys over 1 KiB are skipped with
later keys still considered, and once a key would exceed the cumulative
budget appending stops, keeping exactly the already-accepted keys in their
original order (an in-order sublist of the input). -/
theorem add_surrogate_headers_budget (r : PyResponse) (ks : List String) :
    (∀ v, r.getHeader "Surrogate-Key" = none →
      (HeaderAwareMixin.add_surrogate_headers r ks).getHeader "Surrogate-Key" =
        some v →
      v = joinSpace (HeaderAwareMixin.selectKeys ks 0) ∧
        utf8Len v ≤ 16 * 1024) ∧
    (∀ k ∈ HeaderAwareMixin.selectKeys ks 0, utf8Len k ≤ 1024) ∧
    List.Sublist (HeaderAwareMixin.selectKeys ks 0) ks ∧
    (∀ total k rest, utf8Len k > 1024 →
      HeaderAwareMixin.selectKeys (k :: rest) total =
        HeaderAwareMixin.selectKeys rest total) ∧
    (∀ total k rest, ¬ utf8Len k > 1024 → total + utf8Len k + 1 > 16384 →
      HeaderAwareMixin.selectKeys (k :: rest) total = []) := by
  refine ⟨fun v hnone hv => ?_, selectKeys_members ks 0, selectKeys_sublist ks 0,
    fun total k rest hbig => ?_, fun total k rest hbig hover => ?_⟩
  · unfold HeaderAwareMixin.add_surrogate_headers at hv
    by_cases hks : ks = []
    · rw [if_pos hks] at hv
      rw [hnone] at hv
      exact absurd hv (by simp)
    · rw [if_neg hks] at hv
      by_cases hval : HeaderAwareMixin.selectKeys ks 0 = []
      · rw [if_pos hval] at hv
        rw [hnone] at hv
        exact absurd hv (by simp)
      · rw [if_neg hval, PyResponse.getHeader_setHeader] at hv
        have : v = joinSpace (HeaderAwareMixin.selectKeys ks 0) := by
          injection hv with h
          exact h.symm
        refine ⟨this, ?_⟩
        rw [this]
        exact selectKeys_join_le ks
  · simp [HeaderAwareMixin.selectKeys, hbig]
  · simp [HeaderAwareMixin.selectKeys, hbig, hover]

set_option maxRecDepth 100000 in
/-- Witness for C4: a plain two-key list is kept whole, giving the header
value a b within budget; an oversized first key is skipped while the later
key is still considered. -/
theorem add_surrogate_headers_budget_witness :
    ("a b" = joinSpace (HeaderAwareMixin.selectKeys ["a", "b"] 0) ∧
      utf8Len "a b" ≤ 16 * 1024) ∧
    HeaderAwareMixin.selectKeys [String.mk (List.replicate 1025 'x'), "b"] 0 =
      HeaderAwareMixin.selectKeys ["b"] 0 :=
  ⟨(add_surrogate_headers_budget ⟨[], 200, []⟩ ["a", "b"]).1 "a b" (by decide)
      (by decide),
   (add_surrogate_headers_budget ⟨[], 200, []⟩ []).2.2.2.1 0
      (String.mk (List.replicate 1025 'x')) ["b"] (by decide)⟩

/-! ## Helper lemmas for the composite increment (C5) -/

/-- The state a supporting backend ends in after a successful increment. -/
def incrOkState (group : String) (st : Store) : Store :=
  match DjangoCacheBackend.increment_group_version group st with
  | .ok p => p.2
  | .error _ => st

/-- The value a supporting backend returns from a successful increment. -/
def incrOkVal (group : String) (st : Store) : Int :=
  match DjangoCacheBackend.increment_group_version group st with
  | .ok p => p.1
  | .error _ => 0

/-- The Django backend's increment only fails with TypeError (a non-int
counter value); it never raises NotImplementedError. -/
theorem django_incr_error_eq (g : String) (s : Store) (e : PyErr)
    (h : DjangoCacheBackend.increment_group_version g s = .error e) :
    e = .typeError := by
  unfold DjangoCacheBackend.increment_group_version storeIncr at h
  cases hs : s g with
  | none => rw [hs] at h; simp at h
  | some val =>
    rw [hs] at h
    cases val with
    | int n => simp at h
    | strList l => simp at h; exact h.symm
    | dict d => simp at h; exact h.symm

/-- The composite loop only propagates TypeError. -/
theorem incrAux_error_typeError (group : String) :
    ∀ (bs : List CompositeBackend.SubBackend) (ver : Option Int) (e : PyErr),
      CompositeBackend.incrAux group bs ver = .error e → e = .typeError := by
  intro bs
  induction bs with
  | nil => intro ver e h; simp [CompositeBackend.incrAux] at h
  | cons b rest ih =>
    intro ver e h
    cases b with
    | none =>
      simp only [CompositeBackend.incrAux] at h
      cases hr : CompositeBackend.incrAux group rest ver with
      | error e2 =>
        rw [hr] at h
        simp [Except.map] at h
        exact h ▸ ih ver e2 hr
      | ok q => rw [hr] at h; simp [Except.map] at h
    | some st =>
      simp only [CompositeBackend.incrAux] at h
      cases hi : DjangoCacheBackend.increment_group_version group st with
      | error e2 =>
        rw [hi] at h
        simp at h
        exact h ▸ django_incr_error_eq group st e2 hi
      | ok r =>
        obtain ⟨v, st'⟩ := r
        rw [hi] at h
        dsimp only at h
        cases hr : CompositeBackend.incrAux group rest
            (if ver = none then some v else ver) with
        | error e2 =>
          rw [hr] at h
          simp [Except.map] at h
          exact h ▸ ih _ e2 hr
        | ok q => rw [hr] at h; simp [Except.map] at h

/-- When the loop succeeds, every supporting backend's state was advanced
by its own increment and non-supporting backends are untouched. -/
theorem incrAux_ok_states (group : String) :
    ∀ (bs : List CompositeBackend.SubBackend) (ver : Option Int)
      (p : Option Int × List CompositeBackend.SubBackend),
      CompositeBackend.incrAux group bs ver = .ok p →
      p.2 = bs.map (Option.map (incrOkState group)) := by
  intro bs
  induction bs with
  | nil =>
    intro ver p h
    simp only [CompositeBackend.incrAux] at h
    injection h with h
    rw [← h]
    simp
  | cons b rest ih =>
    intro ver p h
    cases b with
    | none =>
      simp only [CompositeBackend.incrAux] at h
      cases hr : CompositeBackend.incrAux group rest ver with
      | error e => rw [hr] at h; simp [Except.map] at h
      | ok q =>
        rw [hr] at h
        simp only [Except.map] at h
        injection h with h
        rw [← h]
        simp [ih ver q hr]
    | some st =>
      simp only [CompositeBackend.incrAux] at h
      cases hi : DjangoCacheBackend.increment_group_version group st with
      | error e => rw [hi] at h; simp at h
      | ok r =>
        obtain ⟨v, st'⟩ := r
        rw [hi] at h
        dsimp only at h
        cases hr : CompositeBackend.incrAux group rest
            (if ver = none then some v else ver) with
        | error e => rw [hr] at h; simp [Except.map] at h
        | ok q =>
          rw [hr] at h
          simp only [Except.map] at h
          injection h with h
          rw [← h]
          simp only [List.map_cons, List.cons.injEq]
          constructor
          · simp [incrOkState, hi]
          · exact ih _ q hr

/-- A successful loop with no version found means every backend was
unsupported. -/
theorem incrAux_ok_none (group : String) :
    ∀ (bs : List CompositeBackend.SubBackend) (ver : Option Int)
      (bs' : List CompositeBackend.SubBackend),
      CompositeBackend.incrAux group bs ver = .ok (none, bs') →
      ver = none ∧ ∀ b ∈ bs, b = none := by
  intro bs
  induction bs with
  | nil =>
    intro ver bs' h
    simp only [CompositeBackend.incrAux] at h
    injection h with h
    have hv : ver = none := congrArg Prod.fst h
    exact ⟨hv, by simp⟩
  | cons b rest ih =>
    intro ver bs' h
    cases b with
    | none =>
      simp only [CompositeBackend.incrAux] at h
      cases hr : CompositeBackend.incrAux group rest ver with
      | error e => rw [hr] at h; simp [Except.map] at h
      | ok q =>
        rw [hr] at h
        simp only [Except.map] at h
        injection h with h
        have h1 : q.1 = none := by
          have := congrArg Prod.fst h
          simpa using this
        rcases ih ver q.2 (by rw [hr, ← h1]) with ⟨hv, hall⟩
        exact ⟨hv, by
          intro x hx
          rcases List.mem_cons.mp hx with rfl | hx
          · rfl
          · exact hall x hx⟩
    | some st =>
      simp only [CompositeBackend.incrAux] at h
      cases hi : DjangoCacheBackend.increment_group_version group st with
      | error e => rw [hi] at h; simp at h
      | ok r =>
        obtain ⟨v, st'⟩ := r
        rw [hi] at h
        dsimp only at h
        cases hr : CompositeBackend.incrAux group rest
            (if ver = none then some v else ver) with
        | error e => rw [hr] at h; simp [Except.map] at h
        | ok q =>
          rw [hr] at h
          simp only [Except.map] at h
          injection h with h
          have h1 : q.1 = none := by
            have := congrArg Prod.fst h
            simpa using this
          rcases ih _ q.2 (by rw [hr, ← h1]) with ⟨hv, _⟩
          by_cases hvn : ver = none
          · rw [if_pos hvn] at hv; cases hv
          · rw [if_neg hvn] at hv; exact absurd hv hvn

/-- A loop over unsupported backends returns the incoming version and the
unchanged backend list. -/
theorem incrAux_all_none (group : String) :
    ∀ (bs : List CompositeBackend.SubBackend) (ver : Option Int),
      (∀ b ∈ bs, b = none) →
      CompositeBackend.incrAux group bs ver = .ok (ver, bs) := by
  intro bs
  induction bs with
  | nil => intro ver _; rfl
  | cons b rest ih =>
    intro ver hall
    have hb : b = none := hall b (List.mem_cons_self b rest)
    subst hb
    simp only [CompositeBackend.incrAux]
    rw [ih ver fun x hx => hall x (List.mem_cons_of_mem _ hx)]
    rfl

/-- Once a version has been found, the loop keeps it. -/
theorem incrAux_some_ver (group : String) :
    ∀ (bs : List CompositeBackend.SubBackend) (v : Int)
      (p : Option Int × List CompositeBackend.SubBackend),
      CompositeBackend.incrAux group bs (some v) = .ok p → p.1 = some v := by
  intro bs
  induction bs with
  | nil =>
    intro v p h
    simp only [CompositeBackend.incrAux] at h
    injection h with h
    rw [← h]
  | cons b rest ih =>
    intro v p h
    cases b with
    | none =>
      simp only [CompositeBackend.incrAux] at h
      cases hr : CompositeBackend.incrAux group rest (some v) with
      | error e => rw [hr] at h; simp [Except.map] at h
      | ok q =>
        rw [hr] at h
        simp only [Except.map] at h
        injection h with h
        rw [← h]
        exact ih v q hr
    | some st =>
      simp only [CompositeBackend.incrAux] at h
      cases hi : DjangoCacheBackend.increment_group_version group st with
      | error e => rw [hi] at h; simp at h
      | ok r =>
        obtain ⟨w, st'⟩ := r
        rw [hi] at h
        dsimp only at h
        rw [if_neg (Option.some_ne_none v)] at h
        cases hr : CompositeBackend.incrAux group rest (some v) with
        | error e => rw [hr] at h; simp [Except.map] at h
        | ok q =>
          rw [hr] at h
          simp only [Except.map] at h
          injection h with h
          rw [← h]
          exact ih v q hr

/-- The first supporting backend fixes the version the loop reports. -/
theorem incrAux_first_val (group : String) :
    ∀ (pre : List CompositeBackend.SubBackend) (st : Store)
      (rest : List CompositeBackend.SubBackend)
      (p : Option Int × List CompositeBackend.SubBackend),
      (∀ b ∈ pre, b = none) →
      CompositeBackend.incrAux group (pre ++ some st :: rest) none = .ok p →
      p.1 = some (incrOkVal group st) := by
  intro pre
  induction pre with
  | nil =>
    intro st rest p _ h
    simp only [List.nil_append, CompositeBackend.incrAux] at h
    cases hi : DjangoCacheBackend.increment_group_version group st with
    | error e => rw [hi] at h; simp at h
    | ok r =>
      obtain ⟨w, st'⟩ := r
      rw [hi] at h
      dsimp only at h
      simp only [ite_true, if_true] at h
      cases hr : CompositeBackend.incrAux group rest (some w) with
      | error e => rw [hr] at h; simp [Except.map] at h
      | ok q =>
        rw [hr] at h
        simp only [Except.map] at h
        injection h with h
        rw [← h]
        simp only
        rw [incrAux_some_ver group rest w q hr]
        simp [incrOkVal, hi]
  | cons b pre' ih =>
    intro st rest p hall h
    have hb : b = none := hall b (List.mem_cons_self b pre')
    subst hb
    simp only [List.cons_append, CompositeBackend.incrAux, List.append_eq] at h
    cases hr : CompositeBackend.incrAux group (pre' ++ some st :: rest) none with
    | error e => rw [hr] at h; simp [Except.map] at h
    | ok q =>
      rw [hr] at h
      simp only [Except.map] at h
      injection h with h
      rw [← h]
      exact ih st rest q (fun x hx => hall x (List.mem_cons_of_mem _ hx)) hr

/-- C5: CompositeBackend.increment_group_version calls increment on every
wrapped backend that supports it (their states all advance; unsupported
ones are untouched), returns the value produced by the first supporting
backend, and raises NotImplementedError exactly when no wrapped backend
supports group versioning. -/
theorem composite_increment_group_version_spec (group : String)
    (bs : List CompositeBackend.SubBackend) :
    (CompositeBackend.increment_group_version group bs =
        .error .notImplementedError ↔ ∀ b ∈ bs, b = none) ∧
    (∀ v bs', CompositeBackend.increment_group_version group bs = .ok (v, bs') →
      bs' = bs.map (Option.map (incrOkState group))) ∧
    (∀ pre st rest, bs = pre ++ some st :: rest → (∀ b ∈ pre, b = none) →
      ∀ v bs', CompositeBackend.increment_group_version group bs = .ok (v, bs') →
        v = incrOkVal group st) := by
  refine ⟨⟨fun h => ?_, fun h => ?_⟩, fun v bs' h => ?_, fun pre st rest hdec hpre v bs' h => ?_⟩
  · unfold CompositeBackend.increment_group_version at h
    cases ha : CompositeBackend.incrAux group bs none with
    | error e =>
      rw [ha] at h
      dsimp only at h
      injection h with h
      exact absurd (h ▸ incrAux_error_typeError group bs none e ha) (by decide)
    | ok q =>
      obtain ⟨q1, q2⟩ := q
      rw [ha] at h
      cases q1 with
      | none => exact (incrAux_ok_none group bs none q2 ha).2
      | some w =>
        dsimp only at h
        exact Except.noConfusion h
  · unfold CompositeBackend.increment_group_version
    rw [incrAux_all_none group bs none h]
  · unfold CompositeBackend.increment_group_version at h
    cases ha : CompositeBackend.incrAux group bs none with
    | error e =>
      rw [ha] at h
      dsimp only at h
      exact Except.noConfusion h
    | ok q =>
      obtain ⟨q1, q2⟩ := q
      rw [ha] at h
      cases q1 with
      | none =>
        dsimp only at h
        exact Except.noConfusion h
      | some w =>
        dsimp only at h
        injection h with h
        have h2 : q2 = bs' := congrArg Prod.snd h
        rw [← h2]
        exact incrAux_ok_states group bs none (some w, q2) ha
  · subst hdec
    unfold CompositeBackend.increment_group_version at h
    cases ha : CompositeBackend.incrAux group (pre ++ some st :: rest) none with
    | error e =>
      rw [ha] at h
      dsimp only at h
      exact Except.noConfusion h
    | ok q =>
      obtain ⟨q1, q2⟩ := q
      rw [ha] at h
      cases q1 with
      | none =>
        dsimp only at h
        exact Except.noConfusion h
      | some w =>
        dsimp only at h
        injection h with h
        have h1 : w = v := congrArg Prod.fst h
        have hv := incrAux_first_val group pre st rest (some w, q2) hpre ha
        injection hv with hv
        rw [← h1, hv]

/-! ## Helper lemmas for surrogate invalidation (C3) -/

/-- The delete loop over duplicate-free, all-present keys counts every key,
empties exactly those keys, and leaves the rest of the store alone. -/
theorem deleteAll_spec (ks : List String) :
    ∀ (s : Store) (acc : Int),
      ks.Nodup → (∀ k ∈ ks, (s k).isSome) →
      (DjangoCacheBackend.deleteAll ks acc s).1 = acc + ks.length ∧
      (∀ j, (j ∈ ks → (DjangoCacheBackend.deleteAll ks acc s).2 j = none) ∧
        (j ∉ ks → (DjangoCacheBackend.deleteAll ks acc s).2 j = s j)) := by
  induction ks with
  | nil =>
    intro s acc _ _
    refine ⟨by simp [DjangoCacheBackend.deleteAll], fun j => ⟨fun hj => ?_, fun _ => rfl⟩⟩
    simp at hj
  | cons k rest ih =>
    intro s acc hnd hall
    have hk : (s k).isSome = true := hall k (List.mem_cons_self k rest)
    have hstep : DjangoCacheBackend.deleteAll (k :: rest) acc s =
        DjangoCacheBackend.deleteAll rest (acc + 1)
          (fun j => if j = k then none else s j) := by
      simp [DjangoCacheBackend.deleteAll, storeDelete, hk]
    have hnd' : rest.Nodup := (List.nodup_cons.mp hnd).2
    have hkn : k ∉ rest := (List.nodup_cons.mp hnd).1
    have hall' : ∀ j ∈ rest, ((fun j => if j = k then none else s j) j).isSome := by
      intro j hj
      have hjk : j ≠ k := fun hjk => hkn (hjk ▸ hj)
      simp only [if_neg hjk]
      exact hall j (List.mem_cons_of_mem _ hj)
    obtain ⟨h1, h2⟩ := ih (fun j => if j = k then none else s j) (acc + 1) hnd' hall'
    rw [hstep]
    refine ⟨by rw [h1]; push_cast [List.length_cons]; ring,
      fun j => ⟨fun hj => ?_, fun hj => ?_⟩⟩
    · rcases List.mem_cons.mp hj with rfl | hj
      · by_cases hjr : j ∈ rest
        · exact (h2 j).1 hjr
        · rw [(h2 j).2 hjr]
          simp
      · exact (h2 j).1 hj
    · have hjk : j ≠ k := fun hjk => hj (hjk ▸ List.mem_cons_self k rest)
      have hjr : j ∉ rest := fun hjr => hj (List.mem_cons_of_mem _ hjr)
      rw [(h2 j).2 hjr]
      simp [hjk]

/-- Invalidating a tag with no indexed keys returns 0 and leaves the store
unchanged. -/
theorem invalidate_by_surrogate_empty (T : String) (s : Store)
    (h : DjangoCacheIndex.get_keys T s = []) :
    DjangoCacheBackend.invalidate_by_surrogate T s = (0, s) := by
  unfold DjangoCacheBackend.invalidate_by_surrogate
  rw [h]
  rfl

/-- C3: with N distinct entries all present in the store and listed in tag
T's surrogate index, invalidate_by_surrogate deletes all of them, removes
the index entry, and returns N; a repeat call with no new entries returns
0 and changes nothing. -/
theorem invalidate_by_surrogate_complete (T : String) (s : Store)
    (ks : List String) (N : Nat)
    (hidx : s (DjangoCacheIndex.index_key T) = some (.strList ks))
    (hnd : ks.Nodup) (hlen : ks.length = N) (hpos : 0 < N)
    (hne : ∀ k ∈ ks, k ≠ DjangoCacheIndex.index_key T)
    (hpres : ∀ k ∈ ks, (s k).isSome) :
    (DjangoCacheBackend.invalidate_by_surrogate T s).1 = (N : Int) ∧
    (∀ k ∈ ks, (DjangoCacheBackend.invalidate_by_surrogate T s).2 k = none) ∧
    (DjangoCacheBackend.invalidate_by_surrogate T s).2
      (DjangoCacheIndex.index_key T) = none ∧
    DjangoCacheBackend.invalidate_by_surrogate T
      (DjangoCacheBackend.invalidate_by_surrogate T s).2 =
      (0, (DjangoCacheBackend.invalidate_by_surrogate T s).2) := by
  have hkeys : DjangoCacheIndex.get_keys T s = ks := by
    simp [DjangoCacheIndex.get_keys, hidx]
  have hksne : ks ≠ [] := by
    intro h
    rw [h] at hlen
    simp at hlen
    omega
  obtain ⟨h1, h2⟩ := deleteAll_spec ks s 0 hnd hpres
  have hres : DjangoCacheBackend.invalidate_by_surrogate T s =
      ((DjangoCacheBackend.deleteAll ks 0 s).1,
        DjangoCacheIndex.remove T (DjangoCacheBackend.deleteAll ks 0 s).2) := by
    unfold DjangoCacheBackend.invalidate_by_surrogate
    rw [hkeys, if_neg hksne]
  have hfin : ∀ j, (DjangoCacheBackend.invalidate_by_surrogate T s).2 j =
      if j = DjangoCacheIndex.index_key T then none
      else (DjangoCacheBackend.deleteAll ks 0 s).2 j := by
    intro j
    rw [hres]
    rfl
  refine ⟨?_, fun k hk => ?_, ?_, ?_⟩
  · rw [hres]
    simp only
    rw [h1, hlen]
    ring
  · rw [hfin k, if_neg (hne k hk)]
    exact (h2 k).1 hk
  · rw [hfin, if_pos rfl]
  · have hidx2 : (DjangoCacheBackend.invalidate_by_surrogate T s).2
        (DjangoCacheIndex.index_key T) = none := by rw [hfin, if_pos rfl]
    have hkeys2 : DjangoCacheIndex.get_keys T
        (DjangoCacheBackend.invalidate_by_surrogate T s).2 = [] := by
      simp [DjangoCacheIndex.get_keys, hidx2]
    exact invalidate_by_surrogate_empty T _ hkeys2

/-- The concrete store for the C3 witness: tag T indexing entries k1 and
k2, both present. -/
def wInvStore : Store := fun j =>
  if j = "_surrogate:T" then some (.strList ["k1", "k2"])
  else if j = "k1" then some (.dict ⟨[], "text/html", 200, []⟩)
  else if j = "k2" then some (.dict ⟨[], "text/html", 200, []⟩)
  else none

/-- Witness for C3: invalidating T on the two-entry store returns 2,
clears both entries and the index, and a second call returns 0. -/
theorem invalidate_by_surrogate_complete_witness :
    (DjangoCacheBackend.invalidate_by_surrogate "T" wInvStore).1 = (2 : Int) ∧
    (DjangoCacheBackend.invalidate_by_surrogate "T" wInvStore).2 "k1" = none ∧
    (DjangoCacheBackend.invalidate_by_surrogate "T" wInvStore).2
      "_surrogate:T" = none ∧
    DjangoCacheBackend.invalidate_by_surrogate "T"
      (DjangoCacheBackend.invalidate_by_surrogate "T" wInvStore).2 =
      (0, (DjangoCacheBackend.invalidate_by_surrogate "T" wInvStore).2) := by
  obtain ⟨a, b, c, d⟩ := invalidate_by_surrogate_complete "T" wInvStore
    ["k1", "k2"] 2 rfl (by decide) rfl (by decide) (by decide) (by decide)
  exact ⟨a, b "k1" (by decide), c, d⟩

/-! ## Helper lemmas for key normalization (C7) -/

/-- The first element surviving dropWhile fails the predicate. -/
theorem dropWhile_first_false {α : Type} (p : α → Bool) :
    ∀ (l : List α) (c : α) (r : List α),
      l.dropWhile p = c :: r → p c = false := by
  intro l
  induction l with
  | nil => intro c r h; simp at h
  | cons a t ih =>
    intro c r h
    rw [List.dropWhile_cons] at h
    by_cases hp : p a = true
    · rw [if_pos hp] at h
      exact ih c r h
    · rw [if_neg hp] at h
      injection h with h1 _
      subst h1
      simpa using hp

/-- head? version of dropWhile_first_false. -/
theorem dropWhile_head?_false {α : Type} (p : α → Bool) (l : List α) (c : α)
    (h : (l.dropWhile p).head? = some c) : p c = false := by
  cases hd : l.dropWhile p with
  | nil => rw [hd] at h; cases h
  | cons a r =>
    rw [hd] at h
    injection h with h
    subst h
    exact dropWhile_first_false p l a r hd

/-- dropWhile is the identity when the head already fails the predicate. -/
theorem dropWhile_of_head?_false {α : Type} (p : α → Bool) (l : List α) (c : α)
    (hhead : l.head? = some c) (hc : p c = false) : l.dropWhile p = l := by
  cases l with
  | nil => cases hhead
  | cons a t =>
    injection hhead with hhead
    subst hhead
    rw [List.dropWhile_cons, if_neg]
    simp [hc]

/-- A nonempty dropWhile result keeps the original last element. -/
theorem dropWhile_getLast? {α : Type} (p : α → Bool) :
    ∀ (l : List α), l.dropWhile p ≠ [] →
      (l.dropWhile p).getLast? = l.getLast? := by
  intro l
  induction l with
  | nil => intro h; simp at h
  | cons a t ih =>
    intro h
    rw [List.dropWhile_cons] at h ⊢
    by_cases hp : p a = true
    · rw [if_pos hp] at h ⊢
      have ht : t ≠ [] := by
        intro ht
        subst ht
        simp at h
      cases t with
      | nil => exact absurd rfl ht
      | cons b t' => rw [ih h, List.getLast?_cons_cons]
    · rw [if_neg hp]

/-- The head of a stripped list is not whitespace. -/
theorem pyStrip_head?_false (l : List Char) (c : Char)
    (h : (pyStrip l).head? = some c) : isPySpace c = false := by
  unfold pyStrip at h
  rw [List.head?_reverse] at h
  have hne : (l.dropWhile isPySpace).reverse.dropWhile isPySpace ≠ [] := by
    intro h0
    rw [h0] at h
    cases h
  rw [dropWhile_getLast? isPySpace _ hne, List.getLast?_reverse] at h
  exact dropWhile_head?_false isPySpace l c h

/-- The last element of a stripped list is not whitespace. -/
theorem pyStrip_getLast?_false (l : List Char) (c : Char)
    (h : (pyStrip l).getLast? = some c) : isPySpace c = false := by
  unfold pyStrip at h
  rw [List.getLast?_reverse] at h
  exact dropWhile_head?_false isPySpace _ c h

/-- Stripping a list whose two ends are not whitespace changes nothing. -/
theorem pyStrip_of_ends (m : List Char)
    (h1 : ∀ c, m.head? = some c → isPySpace c = false)
    (h2 : ∀ c, m.getLast? = some c → isPySpace c = false) :
    pyStrip m = m := by
  cases m with
  | nil => rfl
  | cons a t =>
    unfold pyStrip
    rw [dropWhile_of_head?_false isPySpace (a :: t) a rfl (h1 a rfl)]
    cases hd : (a :: t).getLast? with
    | none => simp at hd
    | some d =>
      rw [dropWhile_of_head?_false isPySpace ((a :: t).reverse) d
        (by rw [List.head?_reverse]; exact hd) (h2 d hd)]
      exact List.reverse_reverse _

/-- Space replacement leaves non-whitespace characters unchanged. -/
theorem replaceSpaceChar_of_false (c : Char) (h : isPySpace c = false) :
    replaceSpaceChar c = c := by
  unfold replaceSpaceChar
  rw [if_neg]
  intro hc
  subst hc
  simp [isPySpace] at h

/-- Space replacement never produces a space. -/
theorem replaceSpaceChar_ne_space (c : Char) : replaceSpaceChar c ≠ ' ' := by
  unfold replaceSpaceChar
  by_cases hc : c = ' '
  · rw [if_pos hc]; decide
  · rw [if_neg hc]; exact hc

/-- Space replacement is idempotent on characters. -/
theorem replaceSpaceChar_idem (c : Char) :
    replaceSpaceChar (replaceSpaceChar c) = replaceSpaceChar c := by
  by_cases hc : c = ' '
  · subst hc; decide
  · have hcc : replaceSpaceChar c = c := by
      unfold replaceSpaceChar
      rw [if_neg hc]
    rw [hcc, hcc]

/-- Space replacement is idempotent on lists. -/
theorem pyReplaceSpace_idem (m : List Char) :
    pyReplaceSpace (pyReplaceSpace m) = pyReplaceSpace m := by
  simp only [pyReplaceSpace, List.map_map]
  exact List.map_congr_left fun c _ => replaceSpaceChar_idem c

/-- Stripping after normalization changes nothing. -/
theorem pyStrip_replace_strip (l : List Char) :
    pyStrip (pyReplaceSpace (pyStrip l)) = pyReplaceSpace (pyStrip l) := by
  apply pyStrip_of_ends
  · intro c hc
    simp only [pyReplaceSpace, List.head?_map] at hc
    cases hu : (pyStrip l).head? with
    | none => rw [hu] at hc; cases hc
    | some c0 =>
      rw [hu] at hc
      injection hc with hc
      have h0 := pyStrip_head?_false l c0 hu
      rw [← hc, replaceSpaceChar_of_false c0 h0]
      exact h0
  · intro c hc
    simp only [pyReplaceSpace, List.getLast?_map] at hc
    cases hu : (pyStrip l).getLast? with
    | none => rw [hu] at hc; cases hc
    | some c0 =>
      rw [hu] at hc
      injection hc with hc
      have h0 := pyStrip_getLast?_false l c0 hu
      rw [← hc, replaceSpaceChar_of_false c0 h0]
      exact h0

/-- What a successful normalization returns: the stripped,
space-replaced data, known to be nonempty. -/
theorem normalize_key_eq (s t : String)
    (h : SurrogateKeySet.normalize_key s = some t) :
    t.data = pyReplaceSpace (pyStrip s.data) ∧ t ≠ "" := by
  unfold SurrogateKeySet.normalize_key at h
  by_cases h0 : s = ""
  · rw [if_pos h0] at h; cases h
  · rw [if_neg h0] at h
    by_cases h1 : String.mk (pyReplaceSpace (pyStrip s.data)) = ""
    · rw [if_pos h1] at h; cases h
    · rw [if_neg h1] at h
      injection h with h
      exact ⟨by rw [← h], by rw [← h]; exact h1⟩

/-- C7: normalization is idempotent on its successful outputs, and a
successful output is never empty and never contains a space. -/
theorem normalize_key_idempotent (s t : String)
    (h : SurrogateKeySet.normalize_key s = some t) :
    SurrogateKeySet.normalize_key t = some t ∧ t ≠ "" ∧ ' ' ∉ t.data := by
  obtain ⟨hdata, hne⟩ := normalize_key_eq s t h
  have hstrip : pyStrip t.data = t.data := by
    rw [hdata]; exact pyStrip_replace_strip s.data
  have hrep : pyReplaceSpace t.data = t.data := by
    rw [hdata]; exact pyReplaceSpace_idem _
  have hmk : String.mk t.data = t := rfl
  refine ⟨?_, hne, ?_⟩
  · unfold SurrogateKeySet.normalize_key
    rw [if_neg hne, hstrip, hrep, hmk, if_neg hne]
  · intro hmem
    rw [hdata] at hmem
    simp only [pyReplaceSpace] at hmem
    obtain ⟨c, _, hc⟩ := List.mem_map.mp hmem
    exact replaceSpaceChar_ne_space c hc

/-- Witness for C7: normalizing the string space-a-space-b-space yields
a-b, which renormalizes to itself, is nonempty, and has no space. -/
theorem normalize_key_idempotent_witness :
    SurrogateKeySet.normalize_key "a-b" = some "a-b" ∧
      ("a-b" : String) ≠ "" ∧ ' ' ∉ ("a-b" : String).data :=
  normalize_key_idempotent " a b " "a-b" (by decide)

/-! ## Helper lemmas for the header round trip (C8) -/

/-- A string has empty character data exactly when it is empty. -/
theorem data_eq_nil_iff (s : String) : s.data = [] ↔ s = "" := by
  constructor
  · intro h
    calc s = String.mk s.data := rfl
    _ = String.mk [] := by rw [h]
    _ = "" := rfl
  · intro h
    rw [h]

/-- A map that fixes every element of a list fixes the list. -/
theorem map_noop {α : Type} (f : α → α) :
    ∀ (l : List α), (∀ c ∈ l, f c = c) → l.map f = l := by
  intro l
  induction l with
  | nil => intro _; rfl
  | cons a t ih =>
    intro h
    rw [List.map_cons, h a (List.mem_cons_self a t),
      ih fun c hc => h c (List.mem_cons_of_mem _ hc)]

/-- dropWhile over an all-failing list is the identity. -/
theorem dropWhile_all_false {α : Type} (p : α → Bool) :
    ∀ (l : List α), (∀ c ∈ l, p c = false) → l.dropWhile p = l := by
  intro l
  induction l with
  | nil => intro _; rfl
  | cons a t _ =>
    intro h
    rw [List.dropWhile_cons, if_neg (by simp [h a (List.mem_cons_self a t)])]

/-- A whitespace-free nonempty string is a fixed point of normalization. -/
theorem normalize_key_fixed_of (k : String) (hne : k.data ≠ [])
    (hws : ∀ c ∈ k.data, isPySpace c = false) :
    SurrogateKeySet.normalize_key k = some k := by
  have hk : k ≠ "" := fun h => hne ((data_eq_nil_iff k).mpr h)
  have hstrip : pyStrip k.data = k.data := by
    unfold pyStrip
    rw [dropWhile_all_false isPySpace k.data hws,
      dropWhile_all_false isPySpace k.data.reverse
        (fun c hc => hws c (List.mem_reverse.mp hc)),
      List.reverse_reverse]
  have hrep : pyReplaceSpace k.data = k.data :=
    map_noop replaceSpaceChar k.data
      fun c hc => replaceSpaceChar_of_false c (hws c hc)
  have hmk : String.mk k.data = k := rfl
  unfold SurrogateKeySet.normalize_key
  rw [if_neg hk, hstrip, hrep, hmk, if_neg hk]

/-- Building a surrogate key set keeps only nonempty, whitespace-free keys
and never introduces duplicates, provided the raw tags carry no internal
whitespace. -/
theorem add_invariant :
    ∀ (tags acc : List String),
      (∀ t ∈ tags, ∀ c ∈ pyStrip t.data, isPySpace c = false) →
      (∀ k ∈ acc, k.data ≠ [] ∧ ∀ c ∈ k.data, isPySpace c = false) →
      acc.Nodup →
      (∀ k ∈ SurrogateKeySet.add acc tags,
        k.data ≠ [] ∧ ∀ c ∈ k.data, isPySpace c = false) ∧
      (SurrogateKeySet.add acc tags).Nodup := by
  intro tags
  induction tags with
  | nil => intro acc _ hacc hnd; exact ⟨hacc, hnd⟩
  | cons t rest ih =>
    intro acc h hacc hnd
    have hrest : ∀ x ∈ rest, ∀ c ∈ pyStrip x.data, isPySpace c = false :=
      fun x hx => h x (List.mem_cons_of_mem _ hx)
    have hstep : SurrogateKeySet.add acc (t :: rest) =
        SurrogateKeySet.add (SurrogateKeySet.addOne acc t) rest := rfl
    rw [hstep]
    cases hn : SurrogateKeySet.normalize_key t with
    | none =>
      have : SurrogateKeySet.addOne acc t = acc := by
        unfold SurrogateKeySet.addOne
        rw [hn]
      rw [this]
      exact ih acc hrest hacc hnd
    | some n =>
      obtain ⟨hdata, hne⟩ := normalize_key_eq t n hn
      have hPn : n.data ≠ [] ∧ ∀ c ∈ n.data, isPySpace c = false := by
        refine ⟨fun hd => hne ((data_eq_nil_iff n).mp hd), fun c hc => ?_⟩
        rw [hdata] at hc
        obtain ⟨c0, hc0, hfc⟩ := List.mem_map.mp hc
        have h0 := h t (List.mem_cons_self t rest) c0 hc0
        rw [← hfc, replaceSpaceChar_of_false c0 h0]
        exact h0
      by_cases hmem : n ∈ acc
      · have : SurrogateKeySet.addOne acc t = acc := by
          unfold SurrogateKeySet.addOne
          rw [hn]
          simp [hmem]
        rw [this]
        exact ih acc hrest hacc hnd
      · have : SurrogateKeySet.addOne acc t = acc ++ [n] := by
          unfold SurrogateKeySet.addOne
          rw [hn]
          simp [hmem]
        rw [this]
        refine ih (acc ++ [n]) hrest (fun k hk => ?_) ?_
        · rcases List.mem_append.mp hk with hk | hk
          · exact hacc k hk
          · rw [List.mem_singleton.mp hk]
            exact hPn
        · rw [List.nodup_append]
          exact ⟨hnd, List.nodup_singleton n,
            fun a ha hb => hmem (List.mem_singleton.mp hb ▸ ha)⟩

/-- Adding already-normalized, duplicate-free keys appends them all. -/
theorem add_fixed :
    ∀ (ks acc : List String),
      (∀ k ∈ ks, SurrogateKeySet.normalize_key k = some k) →
      (acc ++ ks).Nodup →
      SurrogateKeySet.add acc ks = acc ++ ks := by
  intro ks
  induction ks with
  | nil => intro acc _ _; simp [SurrogateKeySet.add]
  | cons k rest ih =>
    intro acc h hnd
    have hk : SurrogateKeySet.normalize_key k = some k :=
      h k (List.mem_cons_self k rest)
    have hnotin : k ∉ acc := by
      intro hmem
      obtain ⟨-, -, hdisj⟩ := List.nodup_append.mp hnd
      exact hdisj hmem (List.mem_cons_self k rest)
    have hstep : SurrogateKeySet.add acc (k :: rest) =
        SurrogateKeySet.add (acc ++ [k]) rest := by
      have : SurrogateKeySet.addOne acc k = acc ++ [k] := by
        unfold SurrogateKeySet.addOne
        rw [hk]
        simp [hnotin]
      show SurrogateKeySet.add (SurrogateKeySet.addOne acc k) rest = _
      rw [this]
    rw [hstep, ih (acc ++ [k])
      (fun x hx => h x (List.mem_cons_of_mem _ hx))
      (by rw [List.append_assoc]; simpa using hnd)]
    rw [List.append_assoc]
    rfl

/-- Folding the split step over an all-non-whitespace word prepends the
word to the current token. -/
theorem foldr_splitWs_word :
    ∀ (wrd cur : List Char) (ws : List (List Char)),
      (∀ c ∈ wrd, isPySpace c = false) →
      wrd.foldr splitWsStep (cur, ws) = (wrd ++ cur, ws) := by
  intro wrd
  induction wrd with
  | nil => intro cur ws _; rfl
  | cons c w' ih =>
    intro cur ws h
    rw [List.foldr_cons, ih cur ws fun x hx => h x (List.mem_cons_of_mem _ hx)]
    unfold splitWsStep
    rw [if_neg (by simp [h c (List.mem_cons_self c w')])]
    simp

/-- Folding the split step over a space-joined list of nonempty
whitespace-free words recovers the words. -/
theorem foldr_splitWs_join :
    ∀ (rest : List String) (k : String),
      (∀ x ∈ k :: rest, x.data ≠ [] ∧ ∀ c ∈ x.data, isPySpace c = false) →
      (joinSpace (k :: rest)).data.foldr splitWsStep ([], []) =
        (k.data, rest.map String.data) := by
  intro rest
  induction rest with
  | nil =>
    intro k h
    have hk := h k (List.mem_cons_self k [])
    show k.data.foldr splitWsStep ([], []) = (k.data, [])
    rw [foldr_splitWs_word k.data [] [] hk.2]
    rw [List.append_nil]
  | cons k2 rest' ih =>
    intro k h
    have hk := h k (List.mem_cons_self k (k2 :: rest'))
    have hk2 := h k2 (List.mem_cons_of_mem _ (List.mem_cons_self k2 rest'))
    have hdata : (joinSpace (k :: k2 :: rest')).data =
        k.data ++ (' ' :: (joinSpace (k2 :: rest')).data) := by
      show (k ++ " " ++ joinSpace (k2 :: rest')).data = _
      simp [String.data_append]
    rw [hdata, List.foldr_append]
    have hJ := ih k2 fun x hx => h x (List.mem_cons_of_mem _ hx)
    rw [List.foldr_cons, hJ]
    have hsp : splitWsStep ' ' (k2.data, rest'.map String.data) =
        ([], k2.data :: rest'.map String.data) := by
      unfold splitWsStep
      rw [if_pos (by decide)]
      simp [hk2.1]
    rw [hsp, foldr_splitWs_word k.data [] _ hk.2, List.append_nil,
      List.map_cons]

/-- Splitting the space-joined header value of nonempty whitespace-free
keys recovers exactly the keys. -/
theorem pySplit_joinSpace (ks : List String)
    (h : ∀ x ∈ ks, x.data ≠ [] ∧ ∀ c ∈ x.data, isPySpace c = false) :
    pySplit (joinSpace ks) = ks := by
  cases ks with
  | nil => rfl
  | cons k rest =>
    have hfold := foldr_splitWs_join rest k h
    have hk := h k (List.mem_cons_self k rest)
    unfold pySplit splitWs
    rw [hfold]
    show List.map String.mk
        (if k.data = [] then List.map String.data rest
         else k.data :: List.map String.data rest) = k :: rest
    rw [if_neg hk.1, List.map_cons, List.map_map,
      map_noop (String.mk ∘ String.data) rest fun x _ => rfl]

/-- The space-join of nonempty keys is a nonempty string. -/
theorem joinSpace_ne_empty (k : String) (rest : List String)
    (hk : k.data ≠ []) : joinSpace (k :: rest) ≠ "" := by
  intro h
  have hd : (joinSpace (k :: rest)).data = [] := (data_eq_nil_iff _).mpr h
  cases rest with
  | nil => exact hk hd
  | cons k2 rest' =>
    have hj : (joinSpace (k :: k2 :: rest')).data =
        k.data ++ (' ' :: (joinSpace (k2 :: rest')).data) := by
      show (k ++ " " ++ joinSpace (k2 :: rest')).data = _
      simp [String.data_append]
    rw [hj] at hd
    exact hk (List.append_eq_nil.mp hd).1

/-- C8: for a SurrogateKeySet built from tags with no internal whitespace,
parsing the to_header output with from_header reproduces exactly the
set's keys, in order. -/
theorem surrogate_header_round_trip (tags : List String)
    (h : ∀ t ∈ tags, ∀ c ∈ pyStrip t.data, isPySpace c = false) :
    SurrogateKeySet.from_header
      (SurrogateKeySet.to_header (SurrogateKeySet.ofKeys tags)) =
      SurrogateKeySet.ofKeys tags := by
  obtain ⟨hP, hnd⟩ := add_invariant tags [] h (by simp) List.nodup_nil
  have hof : SurrogateKeySet.ofKeys tags = SurrogateKeySet.add [] tags := rfl
  rw [hof]
  cases hks : SurrogateKeySet.add [] tags with
  | nil => rfl
  | cons k rest =>
    rw [hks] at hP hnd
    have hk := hP k (List.mem_cons_self k rest)
    unfold SurrogateKeySet.from_header SurrogateKeySet.to_header
    rw [if_neg (joinSpace_ne_empty k rest hk.1), pySplit_joinSpace _ hP]
    show SurrogateKeySet.add [] (k :: rest) = k :: rest
    rw [add_fixed (k :: rest) []
      (fun x hx => normalize_key_fixed_of x (hP x hx).1 (hP x hx).2)
      (by simpa using hnd)]
    rfl

/-- Witness for C8: the tags b, space-a-space and b build the set with
keys b then a, and the header round trip reproduces it. -/
theorem surrogate_header_round_trip_witness :
    SurrogateKeySet.from_header
      (SurrogateKeySet.to_header (SurrogateKeySet.ofKeys ["b", " a ", "b"])) =
      SurrogateKeySet.ofKeys ["b", " a ", "b"] :=
  surrogate_header_round_trip ["b", " a ", "b"] (by decide)

/-- Witness for C5: one unsupported backend alone raises
NotImplementedError; with an unsupported backend followed by a supporting
one holding counter 5, the composite returns that first supporting
backend's value 6. -/
theorem composite_increment_group_version_spec_witness :
    CompositeBackend.increment_group_version "g" [none] =
      .error .notImplementedError ∧
    (6 : Int) = incrOkVal "g" wStoreFive :=
  ⟨(composite_increment_group_version_spec "g" [none]).1.mpr (by simp),
   (composite_increment_group_version_spec "g" [none, some wStoreFive]).2.2
      [none] wStoreFive [] rfl (by simp) 6 _ rfl⟩

/-! ## Helper lemmas for versioned key construction (C2) -/

/-- Strings with equal character data are equal. -/
theorem string_ext (a b : String) (h : a.data = b.data) : a = b := by
  calc a = String.mk a.data := rfl
  _ = String.mk b.data := by rw [h]
  _ = b := rfl

/-- String append cancels on the left. -/
theorem append_left_cancel_str (a x y : String) (h : a ++ x = a ++ y) :
    x = y := by
  have hd := congrArg String.data h
  simp only [String.data_append] at hd
  exact string_ext x y (List.append_cancel_left hd)

/-- String append cancels on the right. -/
theorem append_right_cancel_str (x y b : String) (h : x ++ b = y ++ b) :
    x = y := by
  have hd := congrArg String.data h
  simp only [String.data_append] at hd
  exact string_ext x y (List.append_cancel_right hd)

/-- The value of a decimal digit character below ten. -/
theorem digitVal_digitChar (n : Nat) (h : n < 10) :
    digitVal (Nat.digitChar n) = n := by
  interval_cases n <;> decide

/-- Appending a digit multiplies the value by ten and adds the digit. -/
theorem decVal_append (l : List Char) (c : Char) :
    decVal (l ++ [c]) = 10 * decVal l + digitVal c := by
  simp [decVal, List.foldl_append]

/-- The decimal rendering evaluates back to its input. -/
theorem decVal_natToDecAux :
    ∀ (fuel n : Nat), n < fuel → decVal (natToDecAux fuel n) = n := by
  intro fuel
  induction fuel with
  | zero => intro n h; omega
  | succ f ih =>
    intro n h
    unfold natToDecAux
    by_cases h10 : n < 10
    · rw [if_pos h10]
      simp [decVal, digitVal_digitChar n h10]
    · rw [if_neg h10]
      rw [decVal_append]
      have hdiv : n / 10 < f := by
        have := Nat.div_lt_self (by omega : 0 < n) (by omega : (1 : Nat) < 10)
        omega
      rw [ih (n / 10) hdiv, digitVal_digitChar (n % 10) (Nat.mod_lt n (by omega))]
      omega

/-- Decimal rendering of naturals is injective. -/
theorem natToDec_inj (a b : Nat) (h : natToDec a = natToDec b) : a = b := by
  have ha := decVal_natToDecAux (a + 1) a (by omega)
  have hb := decVal_natToDecAux (b + 1) b (by omega)
  have hd : natToDecAux (a + 1) a = natToDecAux (b + 1) b :=
    congrArg String.data h
  rw [← ha, ← hb, hd]

/-- An integer and its successor render to different decimal strings. -/
theorem intToDec_ne_succ (v : Int) : intToDec v ≠ intToDec (v + 1) := by
  intro h
  by_cases h0 : 0 ≤ v
  · unfold intToDec at h
    rw [if_neg (by omega), if_neg (by omega)] at h
    have := natToDec_inj _ _ h
    omega
  · by_cases h1 : v = -1
    · subst h1
      norm_num at h
      exact absurd h (by decide)
    · unfold intToDec at h
      rw [if_pos (by omega), if_pos (by omega)] at h
      have h2 : natToDec (-v).toNat = natToDec (-(v + 1)).toNat :=
        append_left_cancel_str "-" _ _ h
      have := natToDec_inj _ _ h2
      omega

/-- A one-versioned-tag key build reads one group version and renders one
name-colon-version part. -/
theorem version_parts_single (tag : String) (t1 : Int) (s : Store) :
    version_parts [(tag, t1)] s =
      ([tag ++ ":" ++ pyStrVal (DjangoCacheBackend.get_group_version tag t1 s).1],
        (DjangoCacheBackend.get_group_version tag t1 s).2) := rfl

/-- Raw keys built from a single version part determine the part. -/
theorem raw_key_injective_parts (pfx : Option String) (p1 p2 rk : String)
    (h : raw_key pfx [p1] rk = raw_key pfx [p2] rk) : p1 = p2 := by
  have h1 : raw_key pfx [p1] rk = renderPrefix pfx ++ ":" ++ p1 ++ ":" ++ rk := rfl
  have h2 : raw_key pfx [p2] rk = renderPrefix pfx ++ ":" ++ p2 ++ ":" ++ rk := rfl
  rw [h1, h2] at h
  have h3 := append_right_cancel_str _ _ rk h
  have h4 := append_right_cancel_str _ _ ":" h3
  exact append_left_cancel_str (renderPrefix pfx ++ ":") _ _ h4

/-- The spec's example store: the catalog counter holds 1. -/
def exCatalogStore : Store :=
  fun k => if k = "catalog" then some (.int 1) else none

/-- The first example request's cache key. -/
def exC2Key1 : String :=
  (build_cache_key (some "prefix") [("catalog", 864000)] "/products/7"
    exCatalogStore).1

/-- The example response body (the two bytes of the text hi). -/
def exC2Resp : PyResponse := ⟨[104, 105], 200, []⟩

/-- The store after the first example request stored its entry and the
catalog tag was invalidated by a version increment. -/
def exC2StoreAfter : Store :=
  storeSet "catalog" (.int 2)
    (DjangoCacheBackend.set ⟨exC2Key1, exC2Resp, 300, []⟩ exCatalogStore).2

/-- The second example request's cache key, after the increment. -/
def exC2Key2 : String :=
  (build_cache_key (some "prefix") [("catalog", 864000)] "/products/7"
    exC2StoreAfter).1

set_option maxRecDepth 100000 in
/-- C2: incrementing a versioned tag's counter between two otherwise
identical requests changes the version component read via
get_group_version (from v to v+1, or from 1 to 2 for a fresh counter), so
the raw composite keys differ; at the spec's example the two hashed cache
keys differ as well and the second lookup misses the stored entry. -/
theorem versioned_tag_increment_changes_key
    (pfx : Option String) (tag requestKey : String) (t1 t2 : Int) (s0 : Store) :
    (∀ v : Int, s0 tag = some (.int v) →
      (version_parts [(tag, t1)] s0).1 = [tag ++ ":" ++ intToDec v] ∧
      DjangoCacheBackend.increment_group_version tag
          (build_cache_key pfx [(tag, t1)] requestKey s0).2 =
        .ok (v + 1, storeSet tag (.int (v + 1)) s0) ∧
      (version_parts [(tag, t2)] (storeSet tag (.int (v + 1)) s0)).1 =
        [tag ++ ":" ++ intToDec (v + 1)] ∧
      raw_key pfx (version_parts [(tag, t1)] s0).1 requestKey ≠
        raw_key pfx (version_parts [(tag, t2)]
          (storeSet tag (.int (v + 1)) s0)).1 requestKey) ∧
    (s0 tag = none →
      (version_parts [(tag, t1)] s0).1 = [tag ++ ":" ++ intToDec 1] ∧
      DjangoCacheBackend.increment_group_version tag
          (build_cache_key pfx [(tag, t1)] requestKey s0).2 =
        .ok (2, storeSet tag (.int 2) (storeSet tag (.int 1) s0)) ∧
      (version_parts [(tag, t2)]
          (storeSet tag (.int 2) (storeSet tag (.int 1) s0))).1 =
        [tag ++ ":" ++ intToDec 2] ∧
      raw_key pfx (version_parts [(tag, t1)] s0).1 requestKey ≠
        raw_key pfx (version_parts [(tag, t2)]
          (storeSet tag (.int 2) (storeSet tag (.int 1) s0))).1 requestKey) ∧
    exC2Key1 ≠ exC2Key2 ∧
    DjangoCacheBackend.get exC2Key2 exC2StoreAfter = none := by
  have hint : ∀ (w : Int), pyStrVal (.int w) = intToDec w := fun w => rfl
  refine ⟨fun v hv => ?_, fun hv => ?_, ?_, ?_⟩
  · have hgv : DjangoCacheBackend.get_group_version tag t1 s0 = (.int v, s0) := by
      simp [DjangoCacheBackend.get_group_version, storeGetOrSet, hv]
    have ha : (version_parts [(tag, t1)] s0).1 = [tag ++ ":" ++ intToDec v] := by
      rw [version_parts_single, hgv]
      rfl
    have hb2 : (build_cache_key pfx [(tag, t1)] requestKey s0).2 = s0 := by
      show (version_parts [(tag, t1)] s0).2 = s0
      rw [version_parts_single, hgv]
    have hread2 : (storeSet tag (.int (v + 1)) s0) tag = some (.int (v + 1)) := by
      simp [storeSet]
    have hgv2 : DjangoCacheBackend.get_group_version tag t2
        (storeSet tag (.int (v + 1)) s0) =
        (.int (v + 1), storeSet tag (.int (v + 1)) s0) := by
      simp [DjangoCacheBackend.get_group_version, storeGetOrSet, hread2]
    have hc : (version_parts [(tag, t2)] (storeSet tag (.int (v + 1)) s0)).1 =
        [tag ++ ":" ++ intToDec (v + 1)] := by
      rw [version_parts_single, hgv2]
      rfl
    refine ⟨ha, ?_, hc, ?_⟩
    · rw [hb2]
      simp [DjangoCacheBackend.increment_group_version, storeIncr, hv]
    · rw [ha, hc]
      intro heq
      have hp := raw_key_injective_parts pfx _ _ requestKey heq
      exact intToDec_ne_succ v (append_left_cancel_str (tag ++ ":") _ _ hp)
  · have hgv : DjangoCacheBackend.get_group_version tag t1 s0 =
        (.int 1, storeSet tag (.int 1) s0) := by
      simp [DjangoCacheBackend.get_group_version, storeGetOrSet, hv]
    have ha : (version_parts [(tag, t1)] s0).1 = [tag ++ ":" ++ intToDec 1] := by
      rw [version_parts_single, hgv]
      rfl
    have hb2 : (build_cache_key pfx [(tag, t1)] requestKey s0).2 =
        storeSet tag (.int 1) s0 := by
      show (version_parts [(tag, t1)] s0).2 = _
      rw [version_parts_single, hgv]
    have hread1 : (storeSet tag (.int 1) s0) tag = some (.int 1) := by
      simp [storeSet]
    have hread2 : (storeSet tag (.int 2) (storeSet tag (.int 1) s0)) tag =
        some (.int 2) := by
      simp [storeSet]
    have hgv2 : DjangoCacheBackend.get_group_version tag t2
        (storeSet tag (.int 2) (storeSet tag (.int 1) s0)) =
        (.int 2, storeSet tag (.int 2) (storeSet tag (.int 1) s0)) := by
      simp [DjangoCacheBackend.get_group_version, storeGetOrSet, hread2]
    have hc : (version_parts [(tag, t2)]
        (storeSet tag (.int 2) (storeSet tag (.int 1) s0))).1 =
        [tag ++ ":" ++ intToDec 2] := by
      rw [version_parts_single, hgv2]
      rfl
    refine ⟨ha, ?_, hc, ?_⟩
    · rw [hb2]
      simp [DjangoCacheBackend.increment_group_version, storeIncr, hread1]
    · rw [ha, hc]
      intro heq
      have hp := raw_key_injective_parts pfx _ _ requestKey heq
      exact intToDec_ne_succ 1 (append_left_cancel_str (tag ++ ":") _ _ hp)
  · decide
  · decide

set_option maxRecDepth 100000 in
/-- Witness for C2: on the example store with the catalog counter at 1,
the first request renders the version part catalog:1, the increment
returns 2, the second request renders catalog:2, and the two raw keys
differ. -/
theorem versioned_tag_increment_changes_key_witness :
    (version_parts [("catalog", 864000)] exCatalogStore).1 =
      ["catalog" ++ ":" ++ intToDec 1] ∧
    (version_parts [("catalog", 864000)]
        (storeSet "catalog" (.int 2) exCatalogStore)).1 =
      ["catalog" ++ ":" ++ intToDec 2] ∧
    raw_key (some "prefix") (version_parts [("catalog", 864000)]
        exCatalogStore).1 "/products/7" ≠
      raw_key (some "prefix") (version_parts [("catalog", 864000)]
        (storeSet "catalog" (.int 2) exCatalogStore)).1 "/products/7" := by
  obtain ⟨a, _, c, d⟩ :=
    (versioned_tag_increment_changes_key (some "prefix") "catalog"
      "/products/7" 864000 864000 exCatalogStore).1 1 rfl
  exact ⟨a, c, d⟩

end CCP
